import Mathlib

/-!
Verification of the wikitools repository: a shallow embedding of the
anchor-extraction, aggregation, storage and TAGME query code, together with
proofs and refutations of the specified properties.

Conventions of the embedding:
* Rust strings are modelled as byte lists (`Str := List Nat`); all inputs used
  in concrete evaluations are ASCII, for which Rust byte indices and list
  indices coincide.  `str` converts a Lean string literal to its byte list.
* Rust `trim` is modelled over the ASCII whitespace bytes (space, tab, CR, LF);
  `to_lowercase` over the ASCII letters.  Non-ASCII whitespace and case pairs
  do not occur in any evaluated input.
* `f32` values that only ever hold small integral counts or exact sums of such
  counts are modelled as exact rationals: every operation performed on them in
  the source (comparison, addition of integral values, subtraction) is exact in
  `f32` at the magnitudes involved, so the rational model is bit-faithful on
  the inputs considered.  The Milne-Witten relatedness computation, which uses
  `ln` and genuinely non-exact division, is modelled over the reals with an
  explicit NaN / infinity carrier (`F`) mirroring the IEEE special cases the
  code can reach.
-/

/-- Byte strings: Rust `&str` / `String` as a list of bytes. -/
abbrev Str := List Nat

/-- Convert a Lean string literal to its byte list (ASCII inputs only). -/
def str (s : String) : Str := s.toList.map Char.toNat

/-- ASCII whitespace, the fragment of Rust `char::is_whitespace` reachable from
our byte-level inputs. -/
def isWsByte (b : Nat) : Bool := b = 32 || b = 9 || b = 10 || b = 13

/-- Rust `str::trim` (ASCII fragment): drop whitespace from both ends. -/
def trimBytes (s : Str) : Str :=
  (((s.dropWhile isWsByte).reverse).dropWhile isWsByte).reverse

/-- ASCII `to_lowercase` on one byte. -/
def lowerByte (b : Nat) : Nat := if 65 ≤ b ∧ b ≤ 90 then b + 32 else b

/-- Rust `str::to_lowercase` (ASCII fragment). -/
def toLowerBytes (s : Str) : Str := s.map lowerByte

/-- Rust `str::find(char)`: index of the first occurrence of byte `b`. -/
def findByte (b : Nat) : Str → Option Nat
  | [] => none
  | c :: rest => if c = b then some 0 else (findByte b rest).map (· + 1)

/-- Apostrophe test for `trim_matches(char)` in `Anchor::parse`. -/
def isAposByte (b : Nat) : Bool := b = 39

/-- Rust `str::trim_matches(char)` with the apostrophe: strip every leading and
trailing apostrophe. -/
def trimApos (s : Str) : Str :=
  (((s.dropWhile isAposByte).reverse).dropWhile isAposByte).reverse

/-! ## `Anchor` and `Anchor::parse` (src/src/page/anchor.rs) -/

/-- The `Anchor` enum: `Direct(name)` or `Label { surface, page }`. -/
inductive Anchor where
  | direct (page : Str)
  | label (surface : Str) (page : Str)
deriving DecidableEq, Repr

/-- The fragment-dropping step inside the `Some(index)` arm of `Anchor::parse`:
`page` is cut at its first `#`, if any. -/
def stripFragment (page : Str) : Str :=
  match findByte 35 page with
  | none => page
  | some i => page.take i

/-- `Anchor::parse` (src/src/page/anchor.rs lines 24-44).  On a `|` at `index`:
the page is `anchor[..index]` trimmed then cut at its first `#`; the surface is
`anchor[index+1..]` trimmed then stripped of surrounding apostrophes; an empty
surface collapses to `Direct`.  Without a `|` the whole token is only trimmed. -/
def anchorParse (anchor : Str) : Anchor :=
  match findByte 124 anchor with
  | some index =>
    let page := stripFragment (trimBytes (anchor.take index))
    let surface := trimApos (trimBytes (anchor.drop (index + 1)))
    if surface = [] then Anchor.direct page
    else Anchor.label surface page
  | none => Anchor.direct (trimBytes anchor)

/-! ## `SurfaceForm` (src/storage/src/surface_form.rs)

Counts are modelled as exact rationals; `sumCounts` is the same left fold that
`iter().map(|(_, v)| v).sum::<f32>()` performs, so every preservation argument
below mirrors the bit-level `f32` computation operation for operation. -/

structure SurfaceForm where
  text : Str
  anchors : List (Str × ℚ)
  wiki_occurrences : ℚ
deriving DecidableEq, Repr

/-- The left-to-right sum of the anchor counts. -/
def sumCounts (l : List (Str × ℚ)) : ℚ := l.foldl (fun acc p => acc + p.2) 0

/-- `SurfaceForm::from_string`. -/
def SurfaceForm.fromString (text : Str) (anchors : List (Str × ℚ)) : SurfaceForm :=
  { text := text, anchors := anchors, wiki_occurrences := sumCounts anchors }

/-- `SurfaceForm::new` delegates to `from_string`. -/
def SurfaceForm.mkNew (surface_form : Str) (anchors : List (Str × ℚ)) : SurfaceForm :=
  SurfaceForm.fromString surface_form anchors

/-- `pair[pair.find(tab).unwrap() + 1..]`: the part of an FST key after its
first tab (the page title).  The `unwrap` cannot fail on keys produced by the
builder, which always contain a tab; absent a tab we return the empty string. -/
def afterFirstTab (pair : Str) : Str :=
  match findByte 9 pair with
  | some i => pair.drop (i + 1)
  | none => []

/-- `SurfaceForm::paired_matches_to_vec`. -/
def pairedMatchesToVec (stream : List (Str × Nat)) : List (Str × ℚ) :=
  stream.map (fun p => (afterFirstTab p.1, (p.2 : ℚ)))

/-- `SurfaceForm::from_paired_matches`. -/
def SurfaceForm.fromPairedMatches (query : Str) (stream : List (Str × Nat)) : SurfaceForm :=
  { text := query
    anchors := pairedMatchesToVec stream
    wiki_occurrences := sumCounts (pairedMatchesToVec stream) }

/-- `SurfaceForm::add_anchor`: push `(page, count as f32)` and add `count` to
`wiki_occurrences`. -/
def SurfaceForm.addAnchor (s : SurfaceForm) (page : Str) (count : Nat) : SurfaceForm :=
  { text := s.text
    anchors := s.anchors ++ [(page, (count : ℚ))]
    wiki_occurrences := s.wiki_occurrences + (count : ℚ) }

/-- The values reachable through the public constructors and updates of
`SurfaceForm`. -/
inductive SurfaceForm.Reachable : SurfaceForm → Prop
  | mkNew (sf : Str) (anchors : List (Str × ℚ)) :
      Reachable (SurfaceForm.mkNew sf anchors)
  | fromString (t : Str) (anchors : List (Str × ℚ)) :
      Reachable (SurfaceForm.fromString t anchors)
  | fromPairedMatches (q : Str) (stream : List (Str × Nat)) :
      Reachable (SurfaceForm.fromPairedMatches q stream)
  | addAnchor (s : SurfaceForm) (page : Str) (count : Nat) :
      Reachable s → Reachable (s.addAnchor page count)

/-! ## Containment pruning (src/tagme/src/query.rs, `TagMeQuery::parse`)

After sorting the mentions by ascending word count, mention `m_i` is dropped
iff some later mention `m_j` contains it as a substring and has a strictly
larger link probability.  The inner loop ranges over the original sorted
vector, so the pass is a function of the ordered mention list and the link
probabilities.  Link probabilities are finite `f32` values, modelled as
rationals. -/

/-- Rust `str::find(&str).is_some()`: `needle` occurs as a contiguous
substring of the haystack. -/
def substrB (needle : Str) : Str → Bool
  | [] => needle.isEmpty
  | c :: rest => needle.isPrefixOf (c :: rest) || substrB needle rest

/-- One containment-pruning pass over the sorted mention list. -/
def prunePass (lp : Str → ℚ) : List Str → List Str
  | [] => []
  | m :: rest =>
    if rest.any (fun mj => substrB m mj && decide (lp m < lp mj)) then
      prunePass lp rest
    else
      m :: prunePass lp rest

/-! ## `TagMe::get_top_k` (src/tagme/src/tag_me.rs lines 103-136)

Scores are finite `f32` values modelled as rationals.  `f32::round` rounds
half away from zero; `f32::EPSILON` is `2^-23`. -/

/-- `f32::round` (half away from zero), then `as usize` (the argument is
non-negative in every reachable call). -/
def roundF32 (q : ℚ) : Int :=
  if 0 ≤ q then ⌊q + 1 / 2⌋ else ⌈q - 1 / 2⌉

/-- `f32::EPSILON = 2^-23`. -/
def epsF32 : ℚ := 1 / 8388608

/-- Stable descending insertion by score, modelling the stable
`sort_by(|(_, s0), (_, s1)| s1.partial_cmp(s0))`. -/
def insertDesc (x : Str × ℚ) : List (Str × ℚ) → List (Str × ℚ)
  | [] => [x]
  | y :: rest => if y.2 ≤ x.2 then x :: y :: rest else y :: insertDesc x rest

/-- Stable descending sort by score. -/
def sortDesc (l : List (Str × ℚ)) : List (Str × ℚ) := l.foldr insertDesc []

/-- The band-collecting loop of `get_top_k`: `count` starts at 1, increments
when the score steps by more than `f32::EPSILON` from the previous one, and the
loop breaks as soon as `count > k`. -/
def topKLoop (k : Nat) : Nat → ℚ → List (Str × ℚ) → List Str
  | _, _, [] => []
  | count, prev, (en, s) :: rest =>
    let count1 := if epsF32 < |s - prev| then count + 1 else count
    if k < count1 then [] else en :: topKLoop k count1 s rest

/-- `TagMe::get_top_k`.  Note the source computes `k.min(1)` (not `max`) after
rounding `|candidates| * k_th`, so `k` is always 0 or 1 except in the
single-candidate early return. -/
def getTopK (kTh : ℚ) (mention_scores : List (Str × ℚ)) : List Str :=
  if mention_scores.length = 1 then mention_scores.map Prod.fst
  else
    let k : Nat := (min (roundF32 ((mention_scores.length : ℚ) * kTh)) 1).toNat
    match sortDesc mention_scores with
    | [] => []
    | (e0, s0) :: rest => topKLoop k 1 s0 ((e0, s0) :: rest)

/-- Modelled from the claim (refinement comparison only): the same procedure
with `k = max(round(|candidates| * k_th), 1)` as the spec states it. -/
def getTopKClaimed (kTh : ℚ) (mention_scores : List (Str × ℚ)) : List Str :=
  if mention_scores.length = 1 then mention_scores.map Prod.fst
  else
    let k : Nat := (max (roundF32 ((mention_scores.length : ℚ) * kTh)) 1).toNat
    match sortDesc mention_scores with
    | [] => []
    | (e0, s0) :: rest => topKLoop k 1 s0 ((e0, s0) :: rest)

/-! ## Surface-form stores (src/storage/src/rocks.rs, src/storage/src/fst.rs) -/

/-- The error kinds a `get` can surface. -/
inductive StoreErr where
  | getError
  | serializeError
deriving DecidableEq, Repr

/-- `RocksDBSurfaceFormStore::get`: an absent key yields `Ok(None)`; a present
key is decoded with `SurfaceForm::from_bytes`, whose failure (corruption)
surfaces as an error.  The key-value backend is modelled as an association
list of raw values and the bincode decoder as a parameter. -/
def rocksGet (decode : List Nat → Option SurfaceForm) (db : List (Str × List Nat))
    (text : Str) : Except StoreErr (Option SurfaceForm) :=
  match db.lookup text with
  | none => Except.ok none
  | some bytes =>
    match decode bytes with
    | some v => Except.ok (some v)
    | none => Except.error StoreErr.serializeError

/-- The FST regex search `format!("{}\t.*", surface_form)`: all map entries
whose key is `surface_form`, a tab, then anything.  The sorted FST map is
modelled as its entry list. -/
def fstSearch (surface_form : Str) (entries : List (Str × Nat)) : List (Str × Nat) :=
  entries.filter (fun p => (surface_form ++ [9]).isPrefixOf p.1)

/-- `WikiAnchors::get` (src/storage/src/fst.rs lines 73-82): always wraps the
search result in `Ok(Some(SurfaceForm::from_paired_matches(..)))`, even when
the stream is empty. -/
def wikiAnchorsGet (entries : List (Str × Nat)) (surface_form : Str) :
    Except StoreErr (Option SurfaceForm) :=
  Except.ok (some (SurfaceForm.fromPairedMatches surface_form (fstSearch surface_form entries)))

/-! ## Nested TSV re-aggregation (src/storage/anchor_counts.rs lines 112-148)

Tries are modelled as association lists sorted by byte-lexicographic key, the
iteration order of `qp_trie`.  The per-chunk work inserts counts per
`(lower(surface), page)`; the merge into the shared accumulator uses
`Trie::extend`, which REPLACES the accumulator entry for an outer key that is
present in both tries. -/

/-- Byte-lexicographic strict order on byte strings. -/
def bytesLt : Str → Str → Bool
  | [], [] => false
  | [], _ :: _ => true
  | _ :: _, [] => false
  | a :: xs, b :: ys => if a < b then true else if b < a then false else bytesLt xs ys

/-- Split a line on tab bytes (Rust `str::split('\t')`); always non-empty. -/
def splitTab : Str → List Str
  | [] => [[]]
  | b :: rest =>
    match splitTab rest with
    | f :: fs => if b = 9 then [] :: f :: fs else (b :: f) :: fs
    | [] => [[]]

/-- `line.rsplit('\t')`: `next()` is the last field (the page), the following
`next()` the second-to-last (the surface); both default to `""`.  The page is
trimmed; the surface is trimmed and lowercased. -/
def lineKeyVal (line : Str) : Str × Str :=
  let fields := splitTab line
  let en := trimBytes (fields.getLast?.getD [])
  let sf := toLowerBytes (trimBytes ((fields.reverse.drop 1).head?.getD []))
  (sf, en)

/-- Inner tries: page → count, sorted by key. -/
abbrev InnerTrie := List (Str × Nat)

/-- Outer tries: surface form → inner trie, sorted by key. -/
abbrev OuterTrie := List (Str × InnerTrie)

/-- `*inner.entry(page).or_insert(0) += 1` on a sorted association list. -/
def bumpInner (k : Str) : InnerTrie → InnerTrie
  | [] => [(k, 1)]
  | (k0, v) :: rest =>
    if k = k0 then (k0, v + 1) :: rest
    else if bytesLt k k0 then (k, 1) :: (k0, v) :: rest
    else (k0, v) :: bumpInner k rest

/-- `*trie.entry(sf).or_insert_with(Trie::new).entry(page).or_insert(0) += 1`. -/
def bumpOuter (sf en : Str) : OuterTrie → OuterTrie
  | [] => [(sf, [(en, 1)])]
  | (k0, inner) :: rest =>
    if sf = k0 then (k0, bumpInner en inner) :: rest
    else if bytesLt sf k0 then (sf, [(en, 1)]) :: (k0, inner) :: rest
    else (k0, inner) :: bumpOuter sf en rest

/-- `Trie::insert` semantics for a whole inner trie: replace the value at the
key if present, insert in key order otherwise. -/
def setOuter (k : Str) (v : InnerTrie) : OuterTrie → OuterTrie
  | [] => [(k, v)]
  | (k0, inner) :: rest =>
    if k = k0 then (k0, v) :: rest
    else if bytesLt k k0 then (k, v) :: (k0, inner) :: rest
    else (k0, inner) :: setOuter k v rest

/-- The per-chunk loop of `extract_anchor_counts_from_anchors_nested`: fold the
chunk lines into a fresh nested trie. -/
def processChunk (lines : List Str) : OuterTrie :=
  lines.foldl (fun t l => bumpOuter (lineKeyVal l).1 (lineKeyVal l).2 t) []

/-- `acc.extend(trie.into_iter())`: repeated insert, replacing the
accumulator inner trie wholesale for every outer key of the incoming trie. -/
def extendMerge (acc from_ : OuterTrie) : OuterTrie :=
  from_.foldl (fun a p => setOuter p.1 p.2 a) acc

/-- `*outer.entry(ikey).or_insert(0) += value` on a sorted association list. -/
def addInner (k : Str) (v : Nat) : InnerTrie → InnerTrie
  | [] => [(k, v)]
  | (k0, v0) :: rest =>
    if k = k0 then (k0, v0 + v) :: rest
    else if bytesLt k k0 then (k, v) :: (k0, v0) :: rest
    else (k0, v0) :: addInner k v rest

/-- `into.entry(key).or_insert_with(Trie::new)` followed by count addition of
one incoming inner trie. -/
def mergeOuterKey (k : Str) (inner : InnerTrie) : OuterTrie → OuterTrie
  | [] => [(k, inner.foldl (fun t q => addInner q.1 q.2 t) [])]
  | (k0, i0) :: rest =>
    if k = k0 then (k0, inner.foldl (fun t q => addInner q.1 q.2 t) i0) :: rest
    else if bytesLt k k0 then
      (k, inner.foldl (fun t q => addInner q.1 q.2 t) []) :: (k0, i0) :: rest
    else (k0, i0) :: mergeOuterKey k inner rest

/-- `TrieBuilderNested::fold` (src/src/extract.rs lines 133-140): merge the
incoming trie into the accumulator by adding the inner counts. -/
def foldMergeNested (acc from_ : OuterTrie) : OuterTrie :=
  from_.foldl (fun a p => mergeOuterKey p.1 p.2 a) acc

/-- `extract_anchor_counts_from_anchors_nested` on a file already split into
newline-aligned chunks of lines: each chunk is folded into its own trie, and
the chunk tries are `extend`-merged into the shared accumulator (in the
nondeterministic order of parallel completion; modelled in list order). -/
def nestedAggregate (chunks : List (List Str)) : OuterTrie :=
  (chunks.map processChunk).foldl extendMerge []

/-! ## Byte-range chunker (src/core/src/bisect.rs)

The file is modelled by its byte list.  `bisect_buffer_with_bounds` probes the
byte at `start + (end-start)/2`; if it is `\n` that position is the split,
otherwise `read_until` advances to the next `\n` (returning its position), or
to `len - 1` when no newline remains before EOF.  Note the returned boundary is
the position OF the newline byte, not the position after it — the repository's
own test `test_bisect_slice_in_half` checks `[(0,3),(3,7)]` on `aaa\nbbc`. -/

/-- Index of the first `\n` byte. -/
def firstNL : Str → Option Nat
  | [] => none
  | b :: rest => if b = 10 then some 0 else (firstNL rest).map (· + 1)

/-- Position of the first `\n` at or after `pos`, or `len - 1` when there is
none (the `read_until` hit EOF). -/
def findNLFrom (data : Str) (pos : Nat) : Nat :=
  match firstNL (data.drop pos) with
  | some i => pos + i
  | none => data.length - 1

/-- `bisect_buffer_with_bounds`. -/
def bisectBoundary (data : Str) (s e : Nat) : Nat :=
  findNLFrom data (s + (e - s) / 2)

/-- `bisect_buffer_recursive_impl`, with explicit fuel standing in for the
well-founded recursion on the range width (each recursive call strictly
shrinks `e - s`, so `fuel = e - s` suffices; see `bisectRecAux_fuel_free`). -/
def bisectRecAux (data : Str) (t : Nat) : Nat → Nat → Nat → List (Nat × Nat)
  | 0, s, e => [(s, e)]
  | fuel + 1, s, e =>
    if e - s ≤ t then [(s, e)]
    else
      let b := bisectBoundary data s e
      if e - b ≤ t ∨ b - s ≤ t then
        if b = e then [(s, b)] else [(s, b), (b, e)]
      else bisectRecAux data t fuel s b ++ bisectRecAux data t fuel b e

/-- `bisect_buffer_recursive`: small inputs return a single whole-file range. -/
def bisectRecursive (data : Str) (t : Nat) : List (Nat × Nat) :=
  if data.length ≤ t * 2 then [(0, data.length)]
  else bisectRecAux data t data.length 0 data.length

/-- `chunk_file` over the file bytes. -/
def chunkFile (data : Str) (chunk_len : Nat) : List (Nat × Nat) := bisectRecursive data chunk_len

/-- Consecutive ranges share their boundary (`adjacentChain` is part of stating
claim C6). -/
def adjacentChain : List (Nat × Nat) → Bool
  | [] => true
  | [_] => true
  | (_, b) :: (c, d) :: rest => b = c && adjacentChain ((c, d) :: rest)

/-- The boundaries interior to a range list: the right ends of all ranges but
the last. -/
def innerBounds (rs : List (Nat × Nat)) : List Nat := rs.dropLast.map Prod.snd

/-- Claim C6 as stated: the ranges of `chunk_file` cover every byte exactly
once, each internal boundary falls immediately AFTER a `\n` byte, and no range
is empty. -/
def chunkClaimC6 (data : Str) (t : Nat) : Prop :=
  ((chunkFile data t).map (fun r => r.2 - r.1)).sum = data.length
  ∧ adjacentChain (chunkFile data t) = true
  ∧ (∀ b ∈ innerBounds (chunkFile data t), 1 ≤ b ∧ data.get? (b - 1) = some 10)
  ∧ ∀ r ∈ chunkFile data t, r.1 < r.2

/-- Range chains: `ChainedP pred s rs e` says the ranges `rs` tile `[s, e)`
consecutively, every interior boundary satisfying `pred`. -/
inductive ChainedP (pred : Nat → Prop) : Nat → List (Nat × Nat) → Nat → Prop
  | single (s e : Nat) : s ≤ e → ChainedP pred s [(s, e)] e
  | cons (s m e : Nat) (rest : List (Nat × Nat)) :
      s ≤ m → pred m → ChainedP pred m rest e → ChainedP pred s ((s, m) :: rest) e

/-! ## Anchor and category extraction (src/storage/src/page/mod.rs, identical
to src/storage/src/page/page.rs; token parsing in src/src/page/anchor.rs) -/

/-- `str::match_indices("[[")` scanning loop, with fuel standing in for the
well-founded recursion on the remaining length (every step consumes at least
one byte, so `fuel = length` suffices and the fuel clause never fires early). -/
def matchIndicesAux : Nat → Str → Nat → List Nat
  | 0, _, _ => []
  | fuel + 1, s, i =>
    match s with
    | b0 :: b1 :: rest =>
      if b0 = 91 ∧ b1 = 91 then i :: matchIndicesAux fuel rest (i + 2)
      else matchIndicesAux fuel (b1 :: rest) (i + 1)
    | _ => []

/-- `str::match_indices("[[")`: positions of non-overlapping occurrences,
scanning left to right. -/
def matchIndicesBB (s : Str) (i : Nat) : List Nat := matchIndicesAux s.length s i

/-- `str::find(&str)`: index of the first occurrence of `pat`. -/
def findSub (pat : Str) : Str → Option Nat
  | [] => if pat = [] then some 0 else none
  | c :: rest =>
    if pat.isPrefixOf (c :: rest) then some 0
    else (findSub pat rest).map (· + 1)

/-- All occurrence positions of `pat` (overlap allowed), used for `rfind`. -/
def occurrences (pat : Str) : Str → Nat → List Nat
  | [], _ => []
  | c :: rest, i =>
    (if pat.isPrefixOf (c :: rest) then [i] else []) ++ occurrences pat rest (i + 1)

/-- `str::rfind(&str)`: index of the last occurrence. -/
def rfindSub (pat : Str) (s : Str) : Option Nat := (occurrences pat s 0).getLast?

/-- The bytes of `"==References=="`. -/
def refsPat : Str := str "==References=="

/-- ASCII letter test, the `[A-Za-z]` of the `EXT_LINK` regex. -/
def isAlphaByte (b : Nat) : Bool := (65 ≤ b && b ≤ 90) || (97 ≤ b && b ≤ 122)

/-- The `EXT_LINK` regex `^[A-Za-z]+:`: one or more ASCII letters then a colon
at the start of the token. -/
def extLinkMatch (s : Str) : Bool :=
  let letters := s.takeWhile isAlphaByte
  !letters.isEmpty && (s.drop letters.length).head? = some 58

/-- `Anchor::pare_anchor_match`, returning the token half-open byte range
`[begin+2, begin+end)` instead of the slice itself (the slice is
`page.take (begin+end) |>.drop (begin+2)`). -/
def pareAnchorRange (page : Str) (begin_ : Nat) : Option (Nat × Nat) :=
  let initial := page.drop (begin_ + 2)
  if initial.head? = some 35 then none
  else if extLinkMatch initial then none
  else (findSub (str "]]") (page.drop begin_)).map (fun e => (begin_ + 2, begin_ + e))

/-- The anchor-token ranges scanned by `Page::extract_anchors`: the page is
restricted to the part strictly before the last `==References==`, then every
`[[` occurrence is pared. -/
def anchorRanges (page : Str) : List (Nat × Nat) :=
  let pfx := match rfindSub refsPat page with
    | some index => page.take index
    | none => page
  (matchIndicesBB pfx 0).filterMap (pareAnchorRange pfx)

/-- Slice of a byte range out of a page body. -/
def sliceRange (page : Str) (r : Nat × Nat) : Str := (page.take r.2).drop r.1

/-- `Page::extract_anchors`: parse each pared token slice. -/
def extractAnchors (page : Str) : List Anchor :=
  let pfx := match rfindSub refsPat page with
    | some index => page.take index
    | none => page
  (anchorRanges page).map (fun r => anchorParse (sliceRange pfx r))

/-- The bytes of `"Category:"`. -/
def categoryPat : Str := str "Category:"

/-- The category-name ranges scanned by `Page::extract_categories`, as
absolute byte ranges in the original body: the page is restricted to the part
at and after the last `==References==` (offset `index`, or 0 when absent), and
for each `[[` whose token starts with `Category:` the name extends from byte 9
of the token to the first `|` before the closing `]]`, or to the `]]`. -/
def catRanges (page : Str) : List (Nat × Nat) :=
  let offset := (rfindSub refsPat page).getD 0
  let sfx := page.drop offset
  (matchIndicesBB sfx 0).filterMap (fun begin_ =>
    let initial := sfx.drop (begin_ + 2)
    if categoryPat.isPrefixOf initial then
      (findSub (str "]]") initial).map (fun e =>
        match findByte 124 (initial.take e) with
        | some actual_end => (offset + begin_ + 2 + 9, offset + begin_ + 2 + actual_end)
        | none => (offset + begin_ + 2 + 9, offset + begin_ + 2 + e))
    else none)

/-- `Page::extract_categories`: the category names themselves. -/
def extractCategories (page : Str) : List Str :=
  (catRanges page).map (sliceRange page)

/-! ## Milne-Witten relatedness and the ρ-prune (src/tagme/src/query.rs)

`f32` values on this path are modelled as exact reals extended with the IEEE
special values the code can produce: `F.nan`, `F.pinf`, `F.ninf`.  `ln` is
`Real.log`; the index is abstracted by its document count `N` and an in-link
oracle `inl` applied to the deduplicated, sorted, underscore-joined URI list —
exactly the key under which `get_in_links` memoizes, so a cache filled from
the index behaves as this pure function. -/

/-- The IEEE `f32` carrier for the relatedness path. -/
inductive F where
  | nan
  | pinf
  | ninf
  | fin (x : ℝ)

/-- IEEE addition on the carrier (finite addition is exact in the model). -/
noncomputable def F.add : F → F → F
  | .nan, _ => .nan
  | _, .nan => .nan
  | .pinf, .ninf => .nan
  | .ninf, .pinf => .nan
  | .pinf, _ => .pinf
  | _, .pinf => .pinf
  | .ninf, _ => .ninf
  | _, .ninf => .ninf
  | .fin x, .fin y => .fin (x + y)

open Classical in
/-- IEEE division on the carrier.  `0/0` is NaN; a nonzero finite value
divided by zero is a signed infinity; a finite value divided by an infinity is
zero.  (Signed zeros are collapsed to `0`, which is sound for every comparison
the code performs.) -/
noncomputable def F.div : F → F → F
  | .nan, _ => .nan
  | _, .nan => .nan
  | .pinf, .pinf => .nan
  | .pinf, .ninf => .nan
  | .ninf, .pinf => .nan
  | .ninf, .ninf => .nan
  | .pinf, .fin d => if 0 ≤ d then .pinf else .ninf
  | .ninf, .fin d => if 0 ≤ d then .ninf else .pinf
  | .fin _, .pinf => .fin 0
  | .fin _, .ninf => .fin 0
  | .fin x, .fin d =>
    if d = 0 then (if x = 0 then .nan else if 0 < x then .pinf else .ninf)
    else .fin (x / d)

/-- `f32 >= threshold` — false whenever the left side is NaN. -/
def F.ge : F → ℝ → Prop
  | .nan, _ => False
  | .pinf, _ => True
  | .ninf, _ => False
  | .fin x, t => t ≤ x

/-- `iter().sum::<f32>()`: left fold of IEEE addition from `0.0`. -/
noncomputable def sumF (l : List F) : F := l.foldl F.add (F.fin 0)

/-- `v.replace(" ", "_")` on bytes. -/
def underscore (s : Str) : Str := s.map (fun b => if b = 32 then 95 else b)

instance : IsAntisymm (List Nat) (· ≤ ·) := ⟨fun _ _ h1 h2 => le_antisymm h1 h2⟩

instance : IsTotal (List Nat) (· ≤ ·) := ⟨fun a b => le_total a b⟩

instance : IsTrans (List Nat) (· ≤ ·) := ⟨fun _ _ _ h1 h2 => le_trans h1 h2⟩

/-- The canonical URI list of `get_in_links`: replace spaces, deduplicate
(`HashSet`), sort.  The sort is byte-lexicographic, Rust `String` order. -/
def canonUris (l : List Str) : List Str :=
  List.insertionSort (· ≤ ·) (l.map underscore).dedup

open Classical in
/-- `TagMeQuery::get_mw_rel` (src/tagme/src/query.rs lines 318-351) over the
index oracle.  The branches mirror the `f32` control flow: equal entities give
`1.0`; a zero minimum in-link count or zero conjunction count gives `0.0`; an
empty index (`N = 0`) makes `ln(N) = -inf`, the ratio `-0.0` and the result
`1.0`; a zero denominator gives NaN when the numerator is also zero, a
`-inf`-clamped `0.0` when it is positive and `+inf` when negative; otherwise
the finite value is clamped below at `0.0`. -/
noncomputable def getMwRel (N : Nat) (inl : List Str → Nat) (e0 e1 : Str) : F :=
  if e0 = e1 then F.fin 1
  else
    let a := inl (canonUris [e0])
    let b := inl (canonUris [e1])
    let mn := min a b
    let mx := max a b
    if mn = 0 then F.fin 0
    else
      let conj := inl (canonUris [e0, e1])
      if conj = 0 then F.fin 0
      else if N = 0 then F.fin 1
      else
        let num := Real.log (mx : ℝ) - Real.log (conj : ℝ)
        let den := Real.log (N : ℝ) - Real.log (mn : ℝ)
        if den = 0 then (if num = 0 then F.nan else if 0 < num then F.fin 0 else F.pinf)
        else
          let rel := 1 - num / den
          if rel < 0 then F.fin 0 else F.fin rel

/-- `TagMeQuery::get_coherence_score` (lines 293-311): the sum of the
relatedness of the entity to every OTHER pair's entity, divided by
`len - 1` when that is nonzero and by the literal `0.0` otherwise. -/
noncomputable def coherenceScore (N : Nat) (inl : List Str → Nat)
    (disamb : List (Str × Str)) (mention entity : Str) : F :=
  let s := sumF ((disamb.filter (fun p => p.1 ≠ mention)).map
    (fun p => getMwRel N inl p.2 entity))
  let divisor : ℝ := if disamb.length - 1 ≠ 0 then ((disamb.length - 1 : Nat) : ℝ) else 0
  F.div s (F.fin divisor)

open Classical in
/-- `TagMeQuery::prune` (lines 262-283): keep each disambiguated pair whose
`ρ = (p_link + coherence) / 2` is at least `rho_th`, returning the ρ as well.
The link probabilities are the finite values recorded during parsing. -/
noncomputable def pruneRho (rho_th : ℝ) (lp : Str → ℝ) (N : Nat)
    (inl : List Str → Nat) (disamb : List (Str × Str)) : List (Str × Str × F) :=
  disamb.filterMap (fun p =>
    let coh := coherenceScore N inl disamb p.1 p.2
    let rho := F.div (F.add (F.fin (lp p.1)) coh) (F.fin 2)
    if F.ge rho rho_th then some (p.1, p.2, rho) else none)

/-- The boundary predicate the chunker actually guarantees: an interior split
sits ON a newline byte, or at `len - 1` when no newline follows the probed
midpoint. -/
def nlPred (data : Str) (b : Nat) : Prop := data.get? b = some 10 ∨ b = data.length - 1

/-- Invariant satisfied by the right end of every range the bisection
recurses into. -/
def endInv (data : Str) (e : Nat) : Prop :=
  e = data.length ∨ data.get? e = some 10 ∨ e = data.length - 1

/-! # Theorems -/

/-! ## C9: the `SurfaceForm` occurrence-sum invariant -/

theorem sumCounts_append_single (l : List (Str × ℚ)) (p : Str) (c : ℚ) :
    sumCounts (l ++ [(p, c)]) = sumCounts l + c := by
  simp [sumCounts, List.foldl_append]

/-- C9: every `SurfaceForm` reachable through `new`, `from_string`,
`from_paired_matches` and `add_anchor` keeps `wiki_occurrences` equal to the
left-to-right sum of its anchor counts, and an empty anchor list forces
`wiki_occurrences = 0`. -/
theorem C9_surface_form_invariant (s : SurfaceForm) (h : s.Reachable) :
    s.wiki_occurrences = sumCounts s.anchors
    ∧ (s.anchors = [] → s.wiki_occurrences = 0) := by
  have key : s.wiki_occurrences = sumCounts s.anchors := by
    induction h with
    | mkNew sf anchors => rfl
    | fromString t anchors => rfl
    | fromPairedMatches q stream => rfl
    | addAnchor s page count _ ih =>
      simp only [SurfaceForm.addAnchor, sumCounts_append_single, ih]
  exact ⟨key, fun he => by rw [key, he]; rfl⟩

/-- Witness for C9 at a concrete reachable value. -/
theorem C9_witness :
    (SurfaceForm.fromString (str "eu") []).wiki_occurrences
      = sumCounts (SurfaceForm.fromString (str "eu") []).anchors
    ∧ ((SurfaceForm.fromString (str "eu") []).anchors = [] →
        (SurfaceForm.fromString (str "eu") []).wiki_occurrences = 0) :=
  C9_surface_form_invariant _ (SurfaceForm.Reachable.fromString _ _)

/-! ## C10: idempotence of the containment-pruning pass -/

theorem mem_prunePass (lp : Str → ℚ) :
    ∀ (l : List Str) (x : Str), x ∈ prunePass lp l → x ∈ l := by
  intro l
  induction l with
  | nil => intro x hx; simp [prunePass] at hx
  | cons m rest ih =>
    intro x hx
    by_cases h : rest.any (fun mj => substrB m mj && decide (lp m < lp mj)) = true
    · simp only [prunePass, if_pos h] at hx
      exact List.mem_cons_of_mem _ (ih x hx)
    · simp only [prunePass, if_neg h, List.mem_cons] at hx
      rcases hx with rfl | hx
      · exact List.mem_cons_self _ _
      · exact List.mem_cons_of_mem _ (ih x hx)

/-- C10: applying the containment-pruning pass a second time to the mentions
that survived the first pass removes nothing further. -/
theorem C10_containment_pruning_idempotent (lp : Str → ℚ) (l : List Str) :
    prunePass lp (prunePass lp l) = prunePass lp l := by
  induction l with
  | nil => rfl
  | cons m rest ih =>
    by_cases h : rest.any (fun mj => substrB m mj && decide (lp m < lp mj)) = true
    · simp only [prunePass, if_pos h]
      exact ih
    · simp only [prunePass, if_neg h]
      have h2 : (prunePass lp rest).any
          (fun mj => substrB m mj && decide (lp m < lp mj)) = false := by
        rw [List.any_eq_false]
        intro mj hmj
        have := List.any_eq_false.mp (Bool.eq_false_iff.mpr h) mj (mem_prunePass lp rest mj hmj)
        simpa using this
      simp only [prunePass, if_neg (by simp [h2] : ¬ (prunePass lp rest).any
        (fun mj => substrB m mj && decide (lp m < lp mj)) = true), ih]

/-! ## C7: `Anchor::parse` normalization -/

/-- C7 counterexample: in the `Direct` form (no `|` in the token) the parser
performs no fragment dropping at all — `"Foo#Bar"` keeps its `#Bar`. -/
theorem C7_counterexample :
    anchorParse [70, 111, 111, 35, 66, 97, 114]
      = Anchor.direct [70, 111, 111, 35, 66, 97, 114]
    ∧ (35 ∈ [70, 111, 111, 35, 66, 97, 114]) := by
  constructor
  · rfl
  · decide

theorem head?_dropWhile_false (p : Nat → Bool) :
    ∀ (l : Str) (a : Nat), (l.dropWhile p).head? = some a → p a = false := by
  intro l
  induction l with
  | nil => intro a h; simp at h
  | cons c rest ih =>
    intro a h
    by_cases hc : p c = true
    · rw [List.dropWhile_cons_of_pos hc] at h
      exact ih a h
    · rw [List.dropWhile_cons_of_neg hc] at h
      simp at h
      rw [← h]
      exact Bool.eq_false_iff.mpr hc

theorem getLast?_dropWhile_of_ne_nil (p : Nat → Bool) :
    ∀ (l : Str), l.dropWhile p ≠ [] → (l.dropWhile p).getLast? = l.getLast? := by
  intro l
  induction l with
  | nil => intro h; simp at h
  | cons c rest ih =>
    intro h
    by_cases hc : p c = true
    · rw [List.dropWhile_cons_of_pos hc] at h ⊢
      rw [ih h]
      have hrest : rest ≠ [] := by
        intro he; rw [he] at h; simp at h
      cases rest with
      | nil => exact absurd rfl hrest
      | cons d ds => simp [List.getLast?_cons_cons]
    · rw [List.dropWhile_cons_of_neg hc]

theorem trimApos_head (s : Str) (a : Nat) :
    (trimApos s).head? = some a → a ≠ 39 := by
  intro h
  unfold trimApos at h
  rw [List.head?_reverse] at h
  have hne : ((s.dropWhile isAposByte).reverse).dropWhile isAposByte ≠ [] := by
    intro he; rw [he] at h; simp at h
  rw [getLast?_dropWhile_of_ne_nil _ _ hne, List.getLast?_reverse] at h
  have := head?_dropWhile_false isAposByte s a h
  simpa [isAposByte] using this

theorem trimApos_last (s : Str) (a : Nat) :
    (trimApos s).getLast? = some a → a ≠ 39 := by
  intro h
  unfold trimApos at h
  rw [List.getLast?_reverse] at h
  have := head?_dropWhile_false isAposByte _ a h
  simpa [isAposByte] using this

theorem findByte_take_of_found (b : Nat) :
    ∀ (l : Str) (i : Nat), findByte b l = some i → findByte b (l.take i) = none := by
  intro l
  induction l with
  | nil => intro i h; simp [findByte] at h
  | cons c rest ih =>
    intro i h
    by_cases hc : c = b
    · simp [findByte, hc] at h
      subst h
      rfl
    · simp [findByte, hc] at h
      obtain ⟨j, hj, rfl⟩ := h
      simp only [List.take_succ_cons, findByte, if_neg hc, ih j hj]
      rfl

theorem findByte_stripFragment (page : Str) : findByte 35 (stripFragment page) = none := by
  unfold stripFragment
  cases h : findByte 35 page with
  | none => exact h
  | some i => exact findByte_take_of_found 35 page i h

/-- C7 amended: with no `|`, the token is only whitespace-trimmed (no fragment
dropping, no apostrophe stripping); with a `|`, the page side is trimmed then
cut at its first `#` (so it never contains `#`), and the surface side is
trimmed then stripped of surrounding apostrophes (so it is non-empty with no
apostrophe at either edge whenever a `Label` is produced). -/
theorem C7_amended (t : Str) :
    (findByte 124 t = none → anchorParse t = Anchor.direct (trimBytes t))
    ∧ (∀ i, findByte 124 t = some i →
        (∀ p, anchorParse t = Anchor.direct p → findByte 35 p = none)
        ∧ (∀ sfc p, anchorParse t = Anchor.label sfc p →
            findByte 35 p = none ∧ sfc ≠ []
            ∧ (∀ a, sfc.head? = some a → a ≠ 39)
            ∧ (∀ a, sfc.getLast? = some a → a ≠ 39))) := by
  constructor
  · intro h
    simp [anchorParse, h]
  · intro i hi
    constructor
    · intro p hp
      simp only [anchorParse, hi] at hp
      by_cases hs : trimApos (trimBytes (t.drop (i + 1))) = []
      · rw [if_pos hs] at hp
        cases hp
        exact findByte_stripFragment _
      · rw [if_neg hs] at hp
        cases hp
    · intro sfc p hp
      simp only [anchorParse, hi] at hp
      by_cases hs : trimApos (trimBytes (t.drop (i + 1))) = []
      · rw [if_pos hs] at hp
        cases hp
      · rw [if_neg hs] at hp
        cases hp
        exact ⟨findByte_stripFragment _, hs, fun a ha => trimApos_head _ a ha,
          fun a ha => trimApos_last _ a ha⟩

/-- Witness for C7 on the token `" F#G|'L'"`. -/
theorem C7_witness :
    findByte 35 [70] = none ∧ ([76] : Str) ≠ []
    ∧ (∀ a, ([76] : Str).head? = some a → a ≠ 39)
    ∧ (∀ a, ([76] : Str).getLast? = some a → a ≠ 39) :=
  ((C7_amended [32, 70, 35, 71, 124, 39, 76, 39]).2 4 (by decide)).2 [76] [70] (by decide)

/-! ## C4: `get` on the two surface-form store backends -/

/-- C4 counterexample: the FST-backed `WikiAnchors::get` does NOT return
`Ok(None)` on an absent key — on the empty store it returns `Ok(Some(..))`
with an empty anchor list. -/
theorem C4_counterexample :
    wikiAnchorsGet [] (str "foo")
      = Except.ok (some { text := str "foo", anchors := [], wiki_occurrences := 0 })
    ∧ wikiAnchorsGet [] (str "foo")
      ≠ (Except.ok none : Except StoreErr (Option SurfaceForm)) := by
  refine ⟨rfl, ?_⟩
  intro h
  rw [show wikiAnchorsGet [] (str "foo")
      = Except.ok (some { text := str "foo", anchors := [], wiki_occurrences := 0 })
    from rfl] at h
  injection h with h2
  exact Option.noConfusion h2

/-- C4 amended: the RocksDB-backed store returns `Ok(None)` for an absent key
(and errors only on backend or decode failure), but the FST-backed
`WikiAnchors::get` always returns `Ok(Some(..))` — an absent key produces a
`SurfaceForm` with empty anchors and zero occurrences rather than `None`. -/
theorem C4_amended :
    (∀ (decode : List Nat → Option SurfaceForm) (db : List (Str × List Nat)) (text : Str),
        db.lookup text = none → rocksGet decode db text = Except.ok none)
    ∧ (∀ (entries : List (Str × Nat)) (sf : Str), fstSearch sf entries = [] →
        wikiAnchorsGet entries sf
          = Except.ok (some { text := sf, anchors := [], wiki_occurrences := 0 })) := by
  constructor
  · intro decode db text h
    simp [rocksGet, h]
  · intro entries sf h
    simp [wikiAnchorsGet, h, SurfaceForm.fromPairedMatches, pairedMatchesToVec, sumCounts]

/-- Witness for C4 on concrete empty stores. -/
theorem C4_witness :
    rocksGet (fun _ => none) [] (str "a") = Except.ok none
    ∧ wikiAnchorsGet [] (str "a")
      = Except.ok (some { text := str "a", anchors := [], wiki_occurrences := 0 }) :=
  ⟨C4_amended.1 (fun _ => none) [] (str "a") rfl, C4_amended.2 [] (str "a") rfl⟩

/-! ## C5: the nested TSV re-aggregator merges with `extend`, not `fold` -/

/-- C5: on the two-line anchor file `"1\tT\tS\tP\n1\tT\tS\tP"` split into two
newline-aligned single-line chunks, the `acc.extend(trie)` merge of
`extract_anchor_counts_from_anchors_nested` REPLACES the accumulated inner
trie for the shared surface form `"s"`, yielding count 1 for page `"P"`; the
whole file processed as one chunk yields the true total 2, which is also what
the claimed `TrieBuilderNested::fold` count-addition merge produces.  The
result therefore depends on the chunking and is not the per-key total. -/
theorem C5_extend_merge_loses_counts :
    nestedAggregate [[str "1\tT\tS\tP"], [str "1\tT\tS\tP"]]
      = [([115], [([80], 1)])]
    ∧ nestedAggregate [[str "1\tT\tS\tP", str "1\tT\tS\tP"]]
      = [([115], [([80], 2)])]
    ∧ foldMergeNested (processChunk [str "1\tT\tS\tP"]) (processChunk [str "1\tT\tS\tP"])
      = [([115], [([80], 2)])] := by
  refine ⟨?_, ?_, ?_⟩ <;> rfl

/-! ## C2: `get_top_k` computes `k.min(1)`, not `max(1, ..)` -/

/-- C2: on ten candidates with distinct scores `10, 9, ..., 1` and
`k_th = 3/10`, the source computes `k = round(10 * 0.3).min(1) = 1` and
returns only the top band, while the claimed `k = max(1, round(10 * 0.3)) = 3`
would return the top three bands.  `getTopKClaimed` is the claim-side variant
(identical but for `max`). -/
theorem C2_top_k_uses_min_not_max :
    getTopK (3 / 10)
      [([49], 10), ([50], 9), ([51], 8), ([52], 7), ([53], 6),
       ([54], 5), ([55], 4), ([56], 3), ([57], 2), ([58], 1)]
      = [[49]]
    ∧ getTopKClaimed (3 / 10)
      [([49], 10), ([50], 9), ([51], 8), ([52], 7), ([53], 6),
       ([54], 5), ([55], 4), ([56], 3), ([57], 2), ([58], 1)]
      = [[49], [50], [51]] := by
  constructor
  · norm_num [getTopK, sortDesc, insertDesc, topKLoop, roundF32, epsF32]
  · norm_num [getTopKClaimed, sortDesc, insertDesc, topKLoop, roundF32, epsF32]

/-! ## C6: the byte-range chunker -/

/-- C6 counterexample: on the repository's own test input `aaa\nbbc` with
`target_size = 3` the ranges are `[(0,3),(3,7)]` (asserted by
`test_bisect_slice_in_half`); the boundary 3 sits ON the `\n` byte —
`data[2] = 'a'`, so the first range does not end immediately after a `\n`. -/
theorem C6_counterexample : ¬ chunkClaimC6 [97, 97, 97, 10, 98, 98, 99] 3 := by
  simp only [chunkClaimC6]
  decide

theorem firstNL_some_spec :
    ∀ (l : Str) (i : Nat), firstNL l = some i →
      l.get? i = some 10 ∧ ∀ j, j < i → l.get? j ≠ some 10 := by
  intro l
  induction l with
  | nil => intro i h; simp [firstNL] at h
  | cons b rest ih =>
    intro i h
    by_cases hb : b = 10
    · simp [firstNL, hb] at h
      subst h
      exact ⟨by simp [hb], fun j hj => by omega⟩
    · simp [firstNL, hb] at h
      obtain ⟨j, hj, rfl⟩ := h
      obtain ⟨h1, h2⟩ := ih j hj
      refine ⟨by simpa using h1, ?_⟩
      intro k hk
      cases k with
      | zero => simpa using hb
      | succ k2 =>
        simp only [List.get?_cons_succ]
        exact h2 k2 (by omega)

theorem firstNL_none_spec :
    ∀ (l : Str), firstNL l = none → ∀ j, l.get? j ≠ some 10 := by
  intro l
  induction l with
  | nil => intro _ j; simp
  | cons b rest ih =>
    intro h j
    by_cases hb : b = 10
    · simp [firstNL, hb] at h
    · simp [firstNL, hb] at h
      cases j with
      | zero => simpa using hb
      | succ j2 =>
        simp only [List.get?_cons_succ]
        exact ih h j2

theorem bisectBoundary_spec (data : Str) (s e : Nat) (hse : s < e)
    (hlen : e ≤ data.length) (hinv : endInv data e) :
    s + (e - s) / 2 ≤ bisectBoundary data s e ∧ bisectBoundary data s e ≤ e
      ∧ nlPred data (bisectBoundary data s e) := by
  have hmide : s + (e - s) / 2 < e := by
    have h2 : (e - s) / 2 < e - s := Nat.div_lt_self (by omega) (by omega)
    omega
  cases hnl : firstNL (data.drop (s + (e - s) / 2)) with
  | some i =>
    have hb : bisectBoundary data s e = s + (e - s) / 2 + i := by
      unfold bisectBoundary findNLFrom
      rw [hnl]
    have h10d := (firstNL_some_spec _ i hnl).1
    have hbound : i < (data.drop (s + (e - s) / 2)).length := by
      rcases List.get?_eq_some.mp h10d with ⟨h, _⟩
      exact h
    have h10 : data.get? (s + (e - s) / 2 + i) = some 10 := by
      rw [← List.get?_drop]
      exact h10d
    have hlen2 : s + (e - s) / 2 + i < data.length := by
      rw [List.length_drop] at hbound
      omega
    rw [hb]
    refine ⟨by omega, ?_, Or.inl h10⟩
    rcases hinv with he | he | he
    · omega
    · by_contra hgt
      push_neg at hgt
      have hne : (data.drop (s + (e - s) / 2)).get? (e - (s + (e - s) / 2)) ≠ some 10 :=
        (firstNL_some_spec _ i hnl).2 _ (by omega)
      rw [List.get?_drop, Nat.add_sub_cancel' (by omega : s + (e - s) / 2 ≤ e)] at hne
      exact hne he
    · omega
  | none =>
    have hb : bisectBoundary data s e = data.length - 1 := by
      unfold bisectBoundary findNLFrom
      rw [hnl]
    have hnone := firstNL_none_spec _ hnl
    rw [hb]
    refine ⟨by omega, ?_, Or.inr rfl⟩
    rcases hinv with he | he | he
    · omega
    · exfalso
      have hne := hnone (e - (s + (e - s) / 2))
      rw [List.get?_drop, Nat.add_sub_cancel' (by omega : s + (e - s) / 2 ≤ e)] at hne
      exact hne he
    · omega

theorem ChainedP.le_of (pred : Nat → Prop) :
    ∀ (s : Nat) (l : List (Nat × Nat)) (e : Nat), ChainedP pred s l e → s ≤ e := by
  intro s l e h
  induction h with
  | single a b hab => exact hab
  | cons a m b rest ham hm hch ih => omega

theorem ChainedP.append_chain (pred : Nat → Prop) {s mm e : Nat}
    {l1 l2 : List (Nat × Nat)} (h1 : ChainedP pred s l1 mm) :
    pred mm → ChainedP pred mm l2 e → ChainedP pred s (l1 ++ l2) e := by
  induction h1 with
  | single a b hab =>
    intro hm h2
    exact ChainedP.cons a b e l2 hab hm h2
  | cons a m1 b rest ham hm1 hch ih =>
    intro hm h2
    exact ChainedP.cons a m1 e (rest ++ l2) ham hm1 (ih hm h2)

theorem ChainedP.sum_ranges (pred : Nat → Prop) :
    ∀ (s : Nat) (l : List (Nat × Nat)) (e : Nat), ChainedP pred s l e →
      (l.map (fun r => r.2 - r.1)).sum = e - s := by
  intro s l e h
  induction h with
  | single a b hab => simp
  | cons a m b rest ham hm hch ih =>
    have hmb : m ≤ b := ChainedP.le_of pred m rest b hch
    simp only [List.map_cons, List.sum_cons, ih]
    omega

theorem bisectRecAux_spec (data : Str) (t : Nat) :
    ∀ (fuel s e : Nat), e - s ≤ fuel → s < e → e ≤ data.length → endInv data e →
      ChainedP (nlPred data) s (bisectRecAux data t fuel s e) e
      ∧ (1 ≤ t → ∀ r ∈ bisectRecAux data t fuel s e, r.1 < r.2) := by
  intro fuel
  induction fuel with
  | zero => intro s e hf hse _ _; omega
  | succ n ih =>
    intro s e hf hse hlen hinv
    obtain ⟨hmb, hbe, hnl⟩ := bisectBoundary_spec data s e hse hlen hinv
    by_cases h1 : e - s ≤ t
    · constructor
      · simp only [bisectRecAux, if_pos h1]
        exact ChainedP.single s e (le_of_lt hse)
      · intro ht r hr
        simp only [bisectRecAux, if_pos h1, List.mem_singleton] at hr
        subst hr
        exact hse
    · by_cases h2 : e - bisectBoundary data s e ≤ t ∨ bisectBoundary data s e - s ≤ t
      · by_cases h3 : bisectBoundary data s e = e
        · constructor
          · simp only [bisectRecAux, if_neg h1, if_pos h2, if_pos h3]
            rw [h3]
            exact ChainedP.single s e (le_of_lt hse)
          · intro ht r hr
            simp only [bisectRecAux, if_neg h1, if_pos h2, if_pos h3,
              List.mem_singleton] at hr
            subst hr
            simpa [h3] using hse
        · constructor
          · simp only [bisectRecAux, if_neg h1, if_pos h2, if_neg h3]
            exact ChainedP.cons s (bisectBoundary data s e) e [(bisectBoundary data s e, e)]
              (by omega) hnl (ChainedP.single _ e hbe)
          · intro ht r hr
            have hsb : s < bisectBoundary data s e := by
              have he2 : 2 ≤ e - s := by omega
              have hd2 : 1 ≤ (e - s) / 2 := (Nat.le_div_iff_mul_le (by norm_num)).mpr (by omega)
              omega
            simp only [bisectRecAux, if_neg h1, if_pos h2, if_neg h3, List.mem_cons,
              List.not_mem_nil, or_false] at hr
            rcases hr with rfl | rfl
            · exact hsb
            · show bisectBoundary data s e < e
              omega
      · push_neg at h2
        have hsb : s < bisectBoundary data s e := by omega
        have hble : bisectBoundary data s e < e := by omega
        have invb : endInv data (bisectBoundary data s e) := by
          rcases hnl with h | h
          · exact Or.inr (Or.inl h)
          · exact Or.inr (Or.inr h)
        obtain ⟨chl, meml⟩ := ih s (bisectBoundary data s e) (by omega) hsb (by omega) invb
        obtain ⟨chr, memr⟩ := ih (bisectBoundary data s e) e (by omega) hble hlen hinv
        have hnotor : ¬ (e - bisectBoundary data s e ≤ t ∨ bisectBoundary data s e - s ≤ t) := by
          omega
        constructor
        · simp only [bisectRecAux, if_neg h1, if_neg hnotor]
          exact ChainedP.append_chain (nlPred data) chl hnl chr
        · intro ht r hr
          simp only [bisectRecAux, if_neg h1, if_neg hnotor, List.mem_append] at hr
          rcases hr with hr | hr
          · exact meml ht r hr
          · exact memr ht r hr

/-- C6 amended: the ranges of `chunk_file` tile `[0, file_size)` consecutively
(hence cover every byte exactly once and sum to the file size); every interior
boundary either sits ON a `\n` byte (the range ends immediately BEFORE the
newline, which starts the next range) or equals `file_size - 1` (when no
newline follows the probed midpoint); and when the file is non-empty and
`target_size ≥ 1`, no returned range is empty. -/
theorem C6_amended (data : Str) (t : Nat) :
    ChainedP (nlPred data) 0 (chunkFile data t) data.length
    ∧ ((chunkFile data t).map (fun r => r.2 - r.1)).sum = data.length
    ∧ (1 ≤ t → data ≠ [] → ∀ r ∈ chunkFile data t, r.1 < r.2) := by
  by_cases h : data.length ≤ t * 2
  · have hch : chunkFile data t = [(0, data.length)] := by
      simp [chunkFile, bisectRecursive, h]
    rw [hch]
    refine ⟨ChainedP.single 0 data.length (Nat.zero_le _), by simp, ?_⟩
    intro ht hne r hr
    simp only [List.mem_singleton] at hr
    subst hr
    have hlen0 : data.length ≠ 0 := fun h0 => hne (List.length_eq_zero.mp h0)
    show (0 : Nat) < data.length
    omega
  · have hch : chunkFile data t = bisectRecAux data t data.length 0 data.length := by
      simp [chunkFile, bisectRecursive, h]
    obtain ⟨hc, hm⟩ := bisectRecAux_spec data t data.length 0 data.length
      (by omega) (by omega) (le_refl _) (Or.inl rfl)
    rw [hch]
    refine ⟨hc, ?_, fun ht _ => hm ht⟩
    have hs := ChainedP.sum_ranges (nlPred data) 0 _ data.length hc
    simpa using hs

/-- Witness for C6 on the file `a\nb` with `target_size = 1`. -/
theorem C6_witness :
    ((0, 1) ∈ chunkFile [97, 10, 98] 1) ∧ (0 : Nat) < 1 :=
  ⟨by decide, (C6_amended [97, 10, 98] 1).2.2 (by decide) (by decide) (0, 1) (by decide)⟩

/-! ## C8: anchors before `==References==`, categories at or after it -/

theorem findSub_bound (pat : Str) :
    ∀ (s : Str) (e : Nat), findSub pat s = some e → e + pat.length ≤ s.length := by
  intro s
  induction s with
  | nil =>
    intro e h
    by_cases hp : pat = []
    · simp [findSub, hp] at h
      simp [hp, h]
    · simp [findSub, hp] at h
  | cons c rest ih =>
    intro e h
    simp only [findSub] at h
    by_cases hp : pat.isPrefixOf (c :: rest) = true
    · rw [if_pos hp] at h
      injection h with h2
      subst h2
      simpa using (List.isPrefixOf_iff_prefix.mp hp).length_le
    · rw [if_neg hp] at h
      rcases Option.map_eq_some'.mp h with ⟨e2, he2, rfl⟩
      have := ih e2 he2
      simp only [List.length_cons]
      omega

theorem mem_occurrences (pat : Str) :
    ∀ (s : Str) (k i : Nat), i ∈ occurrences pat s k →
      k ≤ i ∧ pat.isPrefixOf (s.drop (i - k)) = true := by
  intro s
  induction s with
  | nil => intro k i h; simp [occurrences] at h
  | cons c rest ih =>
    intro k i h
    simp only [occurrences] at h
    rw [List.mem_append] at h
    rcases h with h | h
    · by_cases hp : pat.isPrefixOf (c :: rest) = true
      · rw [if_pos hp] at h
        simp at h
        subst h
        exact ⟨le_refl _, by simpa using hp⟩
      · rw [if_neg hp] at h
        simp at h
    · obtain ⟨hk, hpre⟩ := ih (k + 1) i h
      refine ⟨by omega, ?_⟩
      have hik : i - k = (i - (k + 1)) + 1 := by omega
      rw [hik]
      simpa using hpre

theorem getLast?_mem_local : ∀ (l : List Nat) (a : Nat), l.getLast? = some a → a ∈ l := by
  intro l
  induction l with
  | nil => intro a h; simp at h
  | cons c rest ih =>
    intro a h
    cases rest with
    | nil =>
      simp at h
      simp [h]
    | cons d ds =>
      rw [List.getLast?_cons_cons] at h
      exact List.mem_cons_of_mem _ (ih a h)

theorem rfindSub_bound (pat : Str) (hpat : pat ≠ []) (s : Str) (i : Nat)
    (h : rfindSub pat s = some i) : i + pat.length ≤ s.length := by
  have hmem : i ∈ occurrences pat s 0 := getLast?_mem_local _ _ h
  obtain ⟨_, hpre⟩ := mem_occurrences pat s 0 i hmem
  rw [Nat.sub_zero] at hpre
  have hle := (List.isPrefixOf_iff_prefix.mp hpre).length_le
  rw [List.length_drop] at hle
  have hplen : 1 ≤ pat.length := List.length_pos.mpr hpat
  omega

/-- C8: when `==References==` occurs (last occurrence at byte `i`), every
anchor-token range produced by `extract_anchors` ends at or before `i` (the
token bytes all lie strictly before the occurrence), every category-name range
produced by `extract_categories` starts at or after `i`, and the two scanned
index regions `[0, i)` and `[i, len)` are disjoint. -/
theorem C8_regions (b : Str) (i : Nat) (h : rfindSub refsPat b = some i) :
    (∀ r ∈ anchorRanges b, r.2 ≤ i)
    ∧ (∀ r ∈ catRanges b, i ≤ r.1)
    ∧ Disjoint (Set.Iio i) (Set.Ici i) := by
  have hib : i + 14 ≤ b.length := by
    have := rfindSub_bound refsPat (by decide) b i h
    simpa using this
  refine ⟨?_, ?_, ?_⟩
  · intro r hr
    simp only [anchorRanges, h] at hr
    rw [List.mem_filterMap] at hr
    obtain ⟨begin_, hbmem, hpare⟩ := hr
    simp only [pareAnchorRange] at hpare
    by_cases hh : ((b.take i).drop (begin_ + 2)).head? = some 35
    · rw [if_pos hh] at hpare
      simp at hpare
    · rw [if_neg hh] at hpare
      by_cases hext : extLinkMatch ((b.take i).drop (begin_ + 2)) = true
      · rw [if_pos hext] at hpare
        simp at hpare
      · rw [if_neg hext] at hpare
        rcases Option.map_eq_some'.mp hpare with ⟨e, hfind, hre⟩
        have hbound := findSub_bound _ _ e hfind
        have hlen2 : (str "]]").length = 2 := rfl
        rw [hlen2, List.length_drop, List.length_take] at hbound
        subst hre
        simp only
        omega
  · intro r hr
    simp only [catRanges, h, Option.getD_some] at hr
    rw [List.mem_filterMap] at hr
    obtain ⟨begin_, hbmem, hfn⟩ := hr
    by_cases hcat : categoryPat.isPrefixOf ((b.drop i).drop (begin_ + 2)) = true
    · rw [if_pos hcat] at hfn
      rcases Option.map_eq_some'.mp hfn with ⟨e, hfind, hre⟩
      cases hfb : findByte 124 (((b.drop i).drop (begin_ + 2)).take e) with
      | some actual_end =>
        rw [hfb] at hre
        subst hre
        simp only
        omega
      | none =>
        rw [hfb] at hre
        subst hre
        simp only
        omega
    · rw [if_neg hcat] at hfn
      simp at hfn
  · rw [Set.disjoint_left]
    intro x hx h2
    rw [Set.mem_Iio] at hx
    rw [Set.mem_Ici] at h2
    omega

/-- Witness for C8 on the body `[[A]] ==References== [[Category:B]]`. -/
theorem C8_witness :
    ((2, 3) ∈ anchorRanges (str "[[A]] ==References== [[Category:B]]"))
    ∧ (2, 3).2 ≤ 6
    ∧ ((32, 33) ∈ catRanges (str "[[A]] ==References== [[Category:B]]"))
    ∧ 6 ≤ (32, 33).1 := by
  have h := C8_regions (str "[[A]] ==References== [[Category:B]]") 6 (by decide)
  exact ⟨by decide, h.1 (2, 3) (by decide), by decide, h.2.1 (32, 33) (by decide)⟩

/-! ## C3: Milne-Witten relatedness properties -/

theorem canonUris_pair_comm (x y : Str) : canonUris [x, y] = canonUris [y, x] := by
  unfold canonUris
  simp only [List.map_cons, List.map_nil]
  by_cases h : underscore x = underscore y
  · rw [h]
  · have d1 : ([underscore x, underscore y] : List Str).dedup
        = [underscore x, underscore y] := by
      rw [List.dedup_cons_of_not_mem]
      · simp
      · simp [h]
    have d2 : ([underscore y, underscore x] : List Str).dedup
        = [underscore y, underscore x] := by
      rw [List.dedup_cons_of_not_mem]
      · simp
      · simp [Ne.symm h]
    rw [d1, d2]
    have hs1 : List.Sorted (· ≤ ·)
        (List.insertionSort (· ≤ ·) [underscore x, underscore y]) :=
      List.sorted_insertionSort _ _
    have hs2 : List.Sorted (· ≤ ·)
        (List.insertionSort (· ≤ ·) [underscore y, underscore x]) :=
      List.sorted_insertionSort _ _
    have hp : List.Perm (List.insertionSort (· ≤ ·) [underscore x, underscore y])
        (List.insertionSort (· ≤ ·) [underscore y, underscore x]) :=
      (List.perm_insertionSort _ _).trans
        ((List.Perm.swap _ _ _).trans (List.perm_insertionSort _ _).symm)
    exact List.eq_of_perm_of_sorted hp hs1 hs2

theorem getMwRel_refl (N : Nat) (inl : List Str → Nat) (e : Str) :
    getMwRel N inl e e = F.fin 1 := by
  simp [getMwRel]

theorem getMwRel_symm (N : Nat) (inl : List Str → Nat) (e0 e1 : Str) :
    getMwRel N inl e0 e1 = getMwRel N inl e1 e0 := by
  by_cases h : e0 = e1
  · rw [h]
  · simp only [getMwRel, if_neg h, if_neg (Ne.symm h), canonUris_pair_comm e1 e0]
    rw [min_comm (inl (canonUris [e1])) (inl (canonUris [e0])),
      max_comm (inl (canonUris [e1])) (inl (canonUris [e0]))]

theorem getMwRel_range (N : Nat) (inl : List Str → Nat) (e0 e1 : Str)
    (hconj : inl (canonUris [e0, e1]) ≤ min (inl (canonUris [e0])) (inl (canonUris [e1])))
    (hdisj : min (inl (canonUris [e0])) (inl (canonUris [e1])) < N
      ∨ min (inl (canonUris [e0])) (inl (canonUris [e1])) = 0
      ∨ inl (canonUris [e0, e1]) = 0) :
    ∃ r, getMwRel N inl e0 e1 = F.fin r ∧ 0 ≤ r ∧ r ≤ 1 := by
  by_cases h : e0 = e1
  · exact ⟨1, by simp [getMwRel, h], by norm_num⟩
  by_cases hmn : min (inl (canonUris [e0])) (inl (canonUris [e1])) = 0
  · exact ⟨0, by simp [getMwRel, if_neg h, hmn], by norm_num⟩
  by_cases hconj0 : inl (canonUris [e0, e1]) = 0
  · exact ⟨0, by simp [getMwRel, if_neg h, hmn, hconj0], by norm_num⟩
  have hN : min (inl (canonUris [e0])) (inl (canonUris [e1])) < N := by
    rcases hdisj with hd | hd | hd
    · exact hd
    · exact absurd hd hmn
    · exact absurd hd hconj0
  have hN0 : N ≠ 0 := by omega
  have hmn1 : 1 ≤ min (inl (canonUris [e0])) (inl (canonUris [e1])) :=
    Nat.one_le_iff_ne_zero.mpr hmn
  have hconj1 : 1 ≤ inl (canonUris [e0, e1]) := Nat.one_le_iff_ne_zero.mpr hconj0
  have hden : 0 < Real.log (N : ℝ)
      - Real.log (((min (inl (canonUris [e0])) (inl (canonUris [e1])) : Nat)) : ℝ) := by
    rw [sub_pos]
    apply Real.log_lt_log
    · exact_mod_cast hmn1
    · exact_mod_cast hN
  have hnum : 0 ≤ Real.log (((max (inl (canonUris [e0])) (inl (canonUris [e1])) : Nat)) : ℝ)
      - Real.log ((inl (canonUris [e0, e1]) : Nat) : ℝ) := by
    rw [sub_nonneg]
    apply Real.log_le_log
    · exact_mod_cast hconj1
    · exact_mod_cast le_trans hconj (min_le_max)
  by_cases hrel : (1 : ℝ) - (Real.log (((max (inl (canonUris [e0])) (inl (canonUris [e1])) : Nat)) : ℝ)
      - Real.log ((inl (canonUris [e0, e1]) : Nat) : ℝ))
      / (Real.log (N : ℝ)
        - Real.log (((min (inl (canonUris [e0])) (inl (canonUris [e1])) : Nat)) : ℝ)) < 0
  · refine ⟨0, ?_, le_refl 0, by norm_num⟩
    simp only [getMwRel, if_neg h, if_neg hmn, if_neg hconj0, if_neg hN0,
      if_neg hden.ne', if_pos hrel]
  · have hq : 0 ≤ (Real.log (((max (inl (canonUris [e0])) (inl (canonUris [e1])) : Nat)) : ℝ)
        - Real.log ((inl (canonUris [e0, e1]) : Nat) : ℝ))
        / (Real.log (N : ℝ)
          - Real.log (((min (inl (canonUris [e0])) (inl (canonUris [e1])) : Nat)) : ℝ)) :=
      div_nonneg hnum hden.le
    refine ⟨_, ?_, not_lt.mp hrel, by linarith⟩
    simp only [getMwRel, if_neg h, if_neg hmn, if_neg hconj0, if_neg hN0,
      if_neg hden.ne', if_neg hrel]

/-- C3 amended: `rel_MW` is reflexively `1.0` and symmetric for every index
oracle; and it lies in `[0, 1]` whenever the reported counts are consistent
(`conj ≤ min(a, b)`) and do not make the denominator vanish
(`min(a, b) < N`, or one of the degenerate zero-count early returns fires).
Without the latter condition the code returns NaN — see the counterexample. -/
theorem C3_mw_rel_properties :
    (∀ (N : Nat) (inl : List Str → Nat) (e : Str), getMwRel N inl e e = F.fin 1)
    ∧ (∀ (N : Nat) (inl : List Str → Nat) (e0 e1 : Str),
        getMwRel N inl e0 e1 = getMwRel N inl e1 e0)
    ∧ (∀ (N : Nat) (inl : List Str → Nat) (e0 e1 : Str),
        inl (canonUris [e0, e1]) ≤ min (inl (canonUris [e0])) (inl (canonUris [e1])) →
        (min (inl (canonUris [e0])) (inl (canonUris [e1])) < N
          ∨ min (inl (canonUris [e0])) (inl (canonUris [e1])) = 0
          ∨ inl (canonUris [e0, e1]) = 0) →
        ∃ r, getMwRel N inl e0 e1 = F.fin r ∧ 0 ≤ r ∧ r ≤ 1) :=
  ⟨getMwRel_refl, getMwRel_symm, getMwRel_range⟩

/-- C3 counterexample: a consistent one-document index (`N = 1`, both entities
and their conjunction occurring in it) makes numerator and denominator both
`ln 1 - ln 1 = 0`, so `get_mw_rel` returns `0.0/0.0 = NaN`, which lies in no
interval — the claim that the result is always in `[0, 1]` fails. -/
theorem C3_counterexample :
    getMwRel 1 (fun _ => 1) [97] [98] = F.nan
    ∧ ¬ (∃ r, getMwRel 1 (fun _ => 1) [97] [98] = F.fin r ∧ 0 ≤ r ∧ r ≤ 1) := by
  have hne : ([97] : Str) ≠ [98] := by decide
  have h : getMwRel 1 (fun _ => 1) [97] [98] = F.nan := by
    simp only [getMwRel, if_neg hne]
    norm_num
  refine ⟨h, ?_⟩
  rintro ⟨r, hr, -⟩
  rw [h] at hr
  exact F.noConfusion hr

/-- Witness for C3 at concrete oracles. -/
theorem C3_witness :
    getMwRel 5 (fun _ => 0) [97] [97] = F.fin 1
    ∧ getMwRel 5 (fun _ => 3) [97] [98] = getMwRel 5 (fun _ => 3) [98] [97]
    ∧ ∃ r, getMwRel 2 (fun _ => 1) [97] [98] = F.fin r ∧ 0 ≤ r ∧ r ≤ 1 :=
  ⟨C3_mw_rel_properties.1 5 (fun _ => 0) [97],
   C3_mw_rel_properties.2.1 5 (fun _ => 3) [97] [98],
   C3_mw_rel_properties.2.2 2 (fun _ => 1) [97] [98] (by simp) (Or.inl (by simp))⟩

/-! ## C1: the ρ-prune -/

/-- C1 counterexample: with exactly one disambiguated pair, the coherence
divisor is the literal `0.0`, the coherence is `0.0/0.0 = NaN`, ρ is NaN, and
`NaN >= 0.0` is false — so `prune` with `rho_th = 0.0` drops the only pair
instead of returning it. -/
theorem C1_counterexample :
    pruneRho 0 (fun _ => 0) 0 (fun _ => 0) [([109], [101])] = [] := by
  have hcoh : coherenceScore 0 (fun _ => 0) [([109], [101])] [109] [101] = F.nan := by
    simp [coherenceScore, sumF, F.div]
  simp [pruneRho, hcoh, F.add, F.div, F.ge]

theorem foldl_addF_fin :
    ∀ (l : List F) (acc : ℝ), 0 ≤ acc →
      (∀ f ∈ l, ∃ r, f = F.fin r ∧ 0 ≤ r) →
      ∃ s, l.foldl F.add (F.fin acc) = F.fin s ∧ 0 ≤ s := by
  intro l
  induction l with
  | nil => intro acc hacc _; exact ⟨acc, rfl, hacc⟩
  | cons f rest ih =>
    intro acc hacc hall
    obtain ⟨r, rfl, hr⟩ := hall f (List.mem_cons_self _ _)
    have hstep : F.add (F.fin acc) (F.fin r) = F.fin (acc + r) := rfl
    rw [List.foldl_cons, hstep]
    exact ih (acc + r) (add_nonneg hacc hr) (fun g hg => hall g (List.mem_cons_of_mem _ hg))

theorem sumF_fin_nonneg (l : List F)
    (h : ∀ f ∈ l, ∃ r, f = F.fin r ∧ 0 ≤ r) : ∃ s, sumF l = F.fin s ∧ 0 ≤ s :=
  foldl_addF_fin l 0 (le_refl 0) h

open Classical in
/-- C1 amended: with at least two disambiguated pairs, every pair's link
probability recorded and non-negative, and every pairwise relatedness a
finite non-negative value (which holds for a consistent index with
`min inlinks < N`), the coherence divisor is `|final| - 1` as specified, every
ρ is finite and non-negative, and `prune` at `rho_th = 0.0` keeps every pair.
With exactly one pair the divisor is the literal `0.0` and the pair is dropped
(see the counterexample). -/
theorem C1_prune_keeps_all (lp : Str → ℝ) (N : Nat) (inl : List Str → Nat)
    (disamb : List (Str × Str)) (hlen : 2 ≤ disamb.length)
    (hlp : ∀ m, 0 ≤ lp m)
    (hrel : ∀ a b : Str, ∃ r, getMwRel N inl a b = F.fin r ∧ 0 ≤ r) :
    (pruneRho 0 lp N inl disamb).map (fun q => (q.1, q.2.1)) = disamb := by
  have hge : ∀ p : Str × Str, F.ge
      (F.div (F.add (F.fin (lp p.1)) (coherenceScore N inl disamb p.1 p.2)) (F.fin 2)) 0 := by
    intro p
    obtain ⟨s, hsum, hs0⟩ : ∃ s, sumF ((disamb.filter (fun q => q.1 ≠ p.1)).map
        (fun q => getMwRel N inl q.2 p.2)) = F.fin s ∧ 0 ≤ s := by
      apply sumF_fin_nonneg
      intro f hf
      rw [List.mem_map] at hf
      obtain ⟨q, hq, rfl⟩ := hf
      exact hrel q.2 p.2
    have hne : disamb.length - 1 ≠ 0 := by omega
    have hdpos : (0 : ℝ) < ((disamb.length - 1 : Nat) : ℝ) := by
      exact_mod_cast Nat.pos_of_ne_zero hne
    have hcoh : coherenceScore N inl disamb p.1 p.2
        = F.fin (s / ((disamb.length - 1 : Nat) : ℝ)) := by
      simp only [coherenceScore, hsum, if_pos hne]
      simp [F.div, hdpos.ne']
    rw [hcoh]
    have hstep : F.add (F.fin (lp p.1)) (F.fin (s / ((disamb.length - 1 : Nat) : ℝ)))
        = F.fin (lp p.1 + s / ((disamb.length - 1 : Nat) : ℝ)) := rfl
    rw [hstep]
    have hdiv2 : F.div (F.fin (lp p.1 + s / ((disamb.length - 1 : Nat) : ℝ))) (F.fin 2)
        = F.fin ((lp p.1 + s / ((disamb.length - 1 : Nat) : ℝ)) / 2) := by
      simp [F.div]
    rw [hdiv2]
    show (0 : ℝ) ≤ (lp p.1 + s / ((disamb.length - 1 : Nat) : ℝ)) / 2
    apply div_nonneg
    · exact add_nonneg (hlp p.1) (div_nonneg hs0 hdpos.le)
    · norm_num
  have main : ∀ l : List (Str × Str),
      ((l.filterMap (fun p =>
        if F.ge (F.div (F.add (F.fin (lp p.1))
            (coherenceScore N inl disamb p.1 p.2)) (F.fin 2)) 0
        then some (p.1, p.2, F.div (F.add (F.fin (lp p.1))
            (coherenceScore N inl disamb p.1 p.2)) (F.fin 2))
        else none)).map (fun q => (q.1, q.2.1))) = l := by
    intro l
    induction l with
    | nil => rfl
    | cons p rest ih =>
      simp only [List.filterMap_cons, if_pos (hge p), List.map_cons, ih]
  exact main disamb

/-- Witness for C1 at a concrete two-pair input with a zero in-link oracle. -/
theorem C1_witness :
    (pruneRho 0 (fun _ => 0) 0 (fun _ => 0)
        [([97], [65]), ([98], [66])]).map (fun q => (q.1, q.2.1))
      = [([97], [65]), ([98], [66])] := by
  apply C1_prune_keeps_all
  · decide
  · intro m
    exact le_refl 0
  · intro a b
    by_cases h : a = b
    · exact ⟨1, by simp [getMwRel, h], by norm_num⟩
    · exact ⟨0, by simp [getMwRel, h], le_refl 0⟩
